import Mathlib

/-!
Verification of the MCP TypeScript SDK client/server core against its
natural-language specification.

The development shallowly embeds the relevant program parts:
JSON values and JSON schemas are concrete inductive types; the client
tool-output validator cache, the elicitation wrappers, the capability
gate, the connect handshake and the completable metadata are translated
as pure Lean functions from the TypeScript source (client `index.ts`,
`server/completable.ts`).  Stateful JavaScript mutation is expressed by
explicit state passing; fallible code returns `Except`.
-/

set_option maxHeartbeats 1000000

/-- A JSON value.  Numbers are modelled as integers: none of the verified
code paths depend on non-integral numerics.  An array element is an
`Option Json` because the embedded JavaScript mutation can create array
holes (writing an index beyond the current length): a hole (`none`)
reads back as `undefined` and serializes as `null`.  Values freshly
parsed from JSON have no holes. -/
inductive Json where
  | null : Json
  | bool (b : Bool) : Json
  | num (n : Int) : Json
  | str (s : String) : Json
  | arr (items : List (Option Json)) : Json
  | obj (fields : List (String × Json)) : Json
deriving Repr

/-- First binding of a key in a JSON object field list (JavaScript own
property read `o[k]`; parsed JSON objects have distinct keys).  The
model treats objects as pure dictionaries of their own properties:
schema property names that collide with `Object.prototype` members
(`toString`, `__proto__`, ...) are outside the modelled schema surface
(the spec limits elicitation schemas to ordinary primitive-field
names). -/
def Json.lookupKey : List (String × Json) → String → Option Json
  | [], _ => none
  | (k, v) :: rest, key => if k = key then some v else Json.lookupKey rest key

/-- JavaScript property write `o[k] = v`: an existing key keeps its
position, a fresh key is appended. -/
def Json.setKey : List (String × Json) → String → Json → List (String × Json)
  | [], key, v => [(key, v)]
  | (k, w) :: rest, key, v =>
    if k = key then (k, v) :: rest else (k, w) :: Json.setKey rest key v

/-- The canonical JavaScript array index denoted by a property key, if
any: `n` such that the key is the decimal representation of `n` (no
leading zeros, no sign) and `n` is below the maximal array index
`2^32 - 2`.  Exactly these keys address array elements; any other
string key on an array is an ordinary property, invisible to JSON
serialization. -/
def strToArrayIndex (key : String) : Option Nat :=
  match key.toNat? with
  | some n => if Nat.repr n = key ∧ n < 4294967295 then some n else none
  | none => none

/-- JavaScript array element read `a[n]`: `none` when the index is past
the length or hits a hole (both read as `undefined`). -/
def arrGet (items : List (Option Json)) (n : Nat) : Option Json :=
  (items.getD n none)

/-- JavaScript array element write `a[n] = v`: overwrite in range,
otherwise extend the array, padding the skipped indices with holes. -/
def arrSet (items : List (Option Json)) (n : Nat) (v : Json) : List (Option Json) :=
  if n < items.length then items.set n (some v)
  else items ++ List.replicate (n - items.length) none ++ [some v]

/-- Whether `typeof data === "object"` holds for a non-null JSON value
(arrays and objects). -/
def Json.typeofObject : Json → Bool
  | .arr _ => true
  | .obj _ => true
  | _ => false

/-- Whether the value is a JSON object. -/
def Json.isObj : Json → Bool
  | .obj _ => true
  | _ => false

/-- A JSON Schema as consumed by `applyElicitationDefaults`
(`JsonSchemaType` in the source): the fields the function reads.
An absent `properties` / `anyOf` / `oneOf` member behaves exactly like an
empty one in the source (the guarded loops run zero times), so lists
model them; the presence of a `default` member is significant
(`Object.prototype.hasOwnProperty`), so it stays an `Option`. -/
inductive JsonSchema where
  | mk (type : Option String)
       (properties : List (String × JsonSchema))
       (anyOf : List JsonSchema)
       (oneOf : List JsonSchema)
       (default? : Option Json)
deriving Repr

def JsonSchema.type : JsonSchema → Option String
  | .mk t _ _ _ _ => t

def JsonSchema.properties : JsonSchema → List (String × JsonSchema)
  | .mk _ p _ _ _ => p

def JsonSchema.anyOf : JsonSchema → List JsonSchema
  | .mk _ _ a _ _ => a

def JsonSchema.oneOf : JsonSchema → List JsonSchema
  | .mk _ _ _ o _ => o

def JsonSchema.default? : JsonSchema → Option Json
  | .mk _ _ _ _ d => d

/-- MCP protocol error (class `McpError` in the source). -/
structure McpError where
  code : Int
  message : String
deriving Repr

/-- `ErrorCode.InvalidRequest` from the source types. -/
def ErrorCode.InvalidRequest : Int := -32600

/-- `ErrorCode.InvalidParams` from the source types. -/
def ErrorCode.InvalidParams : Int := -32602

/-- `ErrorCode.InternalError` from the source types. -/
def ErrorCode.InternalError : Int := -32603

/-- A tool as returned by `tools/list` (the fields `cacheToolOutputSchemas`
reads: `name` and the optional `outputSchema`). -/
structure Tool where
  name : String
  outputSchema : Option JsonSchema
deriving Repr

/-- Outcome of invoking a compiled JSON-schema validator
(`JsonSchemaValidator` contract): either a `{valid, errorMessage}`
record, or a thrown exception (`threw`). -/
inductive ValidatorOutcome where
  | res (valid : Bool) (errorMessage : String)
  | threw (msg : String)

/-- A compiled validator: the function produced by
`jsonSchemaValidator.getValidator(schema)`. -/
def CompiledValidator : Type := Json → ValidatorOutcome

/-- `Map.get` on the validator cache (`_cachedToolOutputValidators`). -/
def cacheGet {V : Type} : List (String × V) → String → Option V
  | [], _ => none
  | (k, v) :: rest, key => if k = key then some v else cacheGet rest key

/-- `Map.set` on the validator cache: overwrite in place or append. -/
def cacheSet {V : Type} : List (String × V) → String → V → List (String × V)
  | [], key, v => [(key, v)]
  | (k, w) :: rest, key, v =>
    if k = key then (k, v) :: rest else (k, w) :: cacheSet rest key v

/-- The `for (const tool of tools)` loop body of
`Client.cacheToolOutputSchemas`: cache a compiled validator for each tool
that declares an `outputSchema`. -/
def cacheFill {V : Type} (getValidator : JsonSchema → V) :
    List Tool → List (String × V) → List (String × V)
  | [], cache => cache
  | t :: rest, cache =>
    match t.outputSchema with
    | some s => cacheFill getValidator rest (cacheSet cache t.name (getValidator s))
    | none => cacheFill getValidator rest cache

/-- `Client.cacheToolOutputSchemas(tools)`: `this._cachedToolOutputValidators.clear()`
followed by the fill loop.  The previous cache is discarded, so the
function ignores it. -/
def cacheToolOutputSchemas {V : Type} (getValidator : JsonSchema → V)
    (tools : List Tool) : List (String × V) :=
  cacheFill getValidator tools []

/-- `Client.getToolOutputValidator(toolName)`. -/
def getToolOutputValidator {V : Type} (cache : List (String × V))
    (toolName : String) : Option V :=
  cacheGet cache toolName

/-- The cache state after `Client.listTools()` returns a result with the
given tools: `cacheToolOutputSchemas` replaces the previous cache. -/
def listToolsCache {V : Type} (getValidator : JsonSchema → V)
    (previousCache : List (String × V)) (tools : List Tool) : List (String × V) :=
  cacheToolOutputSchemas getValidator tools

/-- The result of a `tools/call` request, as read by `Client.callTool`:
the optional `structuredContent`, the `isError` flag (absent means false)
and the unstructured `content` blocks. -/
structure CallToolResult where
  structuredContent : Option Json
  isError : Bool
  content : List Json
deriving Repr

/-- The validation tail of `Client.callTool` (source lines 688-726): the
server result has arrived; if a validator is cached for the tool name it
is enforced, otherwise the result passes through. -/
def callTool (cache : List (String × CompiledValidator)) (toolName : String)
    (result : CallToolResult) : Except McpError CallToolResult :=
  match getToolOutputValidator cache toolName with
  | none => .ok result
  | some validator =>
    match result.structuredContent with
    | none =>
      if result.isError then .ok result
      else
        .error ⟨ErrorCode.InvalidRequest,
          "Tool " ++ toolName ++ " has an output schema but did not return structured content"⟩
    | some sc =>
      match validator sc with
      | .res true _ => .ok result
      | .res false errorMessage =>
        .error ⟨ErrorCode.InvalidParams,
          "Structured content does not match the tool\x27s output schema: " ++ errorMessage⟩
      | .threw msg =>
        .error ⟨ErrorCode.InvalidParams,
          "Failed to validate structured content: " ++ msg⟩

/-- One iteration of the `Object.keys(props)` loop body of
`applyElicitationDefaults`, on the field list of the object being
mutated: install the default when the key is missing and a `default`
member exists, then recurse (`recurse`) into the now-present value. -/
def propStepFields (recurse : Json → Json) (key : String) (dflt : Option Json)
    (fields : List (String × Json)) : List (String × Json) :=
  let fields1 :=
    match Json.lookupKey fields key, dflt with
    | none, some d => Json.setKey fields key d
    | _, _ => fields
  match Json.lookupKey fields1 key with
  | some v => Json.setKey fields1 key (recurse v)
  | none => fields1

/-- One iteration of the `Object.keys(props)` loop body on JSON **array**
data: `typeof data === "object"` also holds for arrays, so the source
runs the same loop on them.  A key that is a canonical array index
(`strToArrayIndex`) reads and writes the addressed element — installing
a default there is visible to JSON serialization, and writing past the
length pads with holes.  Any other key reads `undefined` and can only
create a non-index property: invisible to JSON serialization and, since
JSON-parsed schemas are alias-free trees, unable to leak into visible
data, so the model drops it. -/
def arrStepItems (recurse : Json → Json) (key : String) (dflt : Option Json)
    (items : List (Option Json)) : List (Option Json) :=
  match strToArrayIndex key with
  | none => items
  | some n =>
    let items1 :=
      match arrGet items n, dflt with
      | none, some d => arrSet items n d
      | _, _ => items
    match arrGet items1 n with
    | some v => arrSet items1 n (recurse v)
    | none => items1

mutual

/-- `applyElicitationDefaults(schema, data)` from the client source
(lines 215-247), functionally: the in-place mutation of `data` becomes
the returned value. -/
def applyElicitationDefaults (schema : Option JsonSchema) (data : Json) : Json :=
  match schema with
  | none => data
  | some (.mk type properties anyOf oneOf _) =>
    if data.typeofObject then
      applyDefaultsList oneOf
        (applyDefaultsList anyOf
          (if type = some "object" then applyPropertyDefaults properties data else data))
    else data
termination_by sizeOf schema
decreasing_by
  all_goals simp_wf
  all_goals omega

/-- The `for (const key of Object.keys(props))` loop: run `propStepFields`
for each property in order on objects, and `arrStepItems` on arrays
(which also satisfy the `typeof data === "object"` guard in the
source).  Scalar `data` passes through: property reads on primitives
yield `undefined` boxed-primitive members at most, and primitives
cannot be mutated. -/
def applyPropertyDefaults (props : List (String × JsonSchema)) (data : Json) : Json :=
  match props, data with
  | [], _ => data
  | (key, propSchema) :: rest, .obj fields =>
    applyPropertyDefaults rest
      (.obj (propStepFields (fun v => applyElicitationDefaults (some propSchema) v)
        key propSchema.default? fields))
  | (key, propSchema) :: rest, .arr items =>
    applyPropertyDefaults rest
      (.arr (arrStepItems (fun v => applyElicitationDefaults (some propSchema) v)
        key propSchema.default? items))
  | (_, _) :: rest, _ => applyPropertyDefaults rest data
termination_by sizeOf props + 1
decreasing_by
  all_goals simp_wf
  all_goals omega

/-- The `anyOf` / `oneOf` loops: apply each branch in order to the same
data value. -/
def applyDefaultsList (subs : List JsonSchema) (data : Json) : Json :=
  match subs with
  | [] => data
  | s :: rest => applyDefaultsList rest (applyElicitationDefaults (some s) data)
termination_by sizeOf subs + 1
decreasing_by
  all_goals simp_wf
  all_goals omega

end

/-- The `form` member of the client elicitation capability
(`{applyDefaults?: boolean}`; an absent flag is falsy). -/
structure FormCapability where
  applyDefaults : Bool
deriving Repr, DecidableEq

/-- The declared client elicitation capability object: optional `form`
and `url` members (their presence is what `getSupportedElicitationModes`
tests). -/
structure ElicitationCapability where
  form : Option FormCapability
  url : Option Unit
deriving Repr, DecidableEq

/-- Result record of `getSupportedElicitationModes`. -/
structure SupportedElicitationModes where
  supportsFormMode : Bool
  supportsUrlMode : Bool
deriving Repr, DecidableEq

/-- `getSupportedElicitationModes(capabilities)` from the client source
(lines 259-275). -/
def getSupportedElicitationModes (capabilities : Option ElicitationCapability) :
    SupportedElicitationModes :=
  match capabilities with
  | none => ⟨false, false⟩
  | some c =>
    let hasFormCapability := c.form.isSome
    let hasUrlCapability := c.url.isSome
    ⟨hasFormCapability || (!hasFormCapability && !hasUrlCapability), hasUrlCapability⟩

/-- The elicitation mode carried by an `elicitation/create` request. -/
inductive ElicitMode where
  | form
  | url
deriving Repr, DecidableEq

/-- The parameters of an inbound `elicitation/create` request, as read by
the wrapped client handler: the mode and (in form mode) the requested
schema. -/
structure ElicitParams where
  mode : ElicitMode
  requestedSchema : Option JsonSchema
deriving Repr

/-- The `action` member of an elicitation result. -/
inductive ElicitAction where
  | accept
  | decline
  | cancel
deriving Repr, DecidableEq

/-- An elicitation result: the action plus optional content. -/
structure ElicitResult where
  action : ElicitAction
  content : Option Json
deriving Repr

/-- The wrapper `Client.setRequestHandler` installs around a user handler
for `elicitation/create` (source lines 409-457): the mode gate runs
before the user handler, then (form mode, accepted content, requested
schema present, `form.applyDefaults` declared) defaults are applied to
the handler result.  The user handler is a function argument so that the
theorems can express that the gate fires without consulting it. -/
def wrappedElicitationHandler (elicitation : Option ElicitationCapability)
    (params : ElicitParams) (handler : Unit → ElicitResult) :
    Except McpError ElicitResult :=
  let modes := getSupportedElicitationModes elicitation
  if params.mode = .form ∧ modes.supportsFormMode = false then
    .error ⟨ErrorCode.InvalidParams, "Client does not support form-mode elicitation requests"⟩
  else if params.mode = .url ∧ modes.supportsUrlMode = false then
    .error ⟨ErrorCode.InvalidParams, "Client does not support URL-mode elicitation requests"⟩
  else
    let validatedResult := handler ()
    let requestedSchema := if params.mode = .form then params.requestedSchema else none
    if params.mode = .form ∧ validatedResult.action = .accept ∧
        validatedResult.content.isSome ∧ requestedSchema.isSome then
      if (elicitation.bind (·.form)).elim false (·.applyDefaults) then
        .ok { validatedResult with
              content := some (applyElicitationDefaults requestedSchema
                (validatedResult.content.getD .null)) }
      else .ok validatedResult
    else .ok validatedResult

/-- Modelled from the spec: the form-mode result handling of
`Server.elicitInput` (its implementation file `server/index.ts` is not
among the sources; only its tests are).  Per the spec: when the handler
result has `action=accept`, the content is validated against the
compiled requested-schema validator; a validation failure surfaces as
`InvalidParams` with message containing "Elicitation response content
does not match requested schema"; a validator exception surfaces as
`InternalError` with message "Error validating elicitation response:
...";  `decline` and `cancel` responses are returned unvalidated. -/
def elicitInputForm (validator : CompiledValidator) (handlerResult : ElicitResult) :
    Except McpError ElicitResult :=
  match handlerResult.action with
  | .accept =>
    match validator (handlerResult.content.getD .null) with
    | .res true _ => .ok handlerResult
    | .res false errorMessage =>
      .error ⟨ErrorCode.InvalidParams,
        "Elicitation response content does not match requested schema: " ++ errorMessage⟩
    | .threw msg =>
      .error ⟨ErrorCode.InternalError, "Error validating elicitation response: " ++ msg⟩
  | .decline => .ok handlerResult
  | .cancel => .ok handlerResult

/-- The `resources` server capability: presence of the object plus its
`subscribe` sub-bit (absent means falsy). -/
structure ResourcesCapability where
  subscribe : Bool
deriving Repr, DecidableEq

/-- Negotiated server capabilities, as read by
`Client.assertCapabilityForMethod`: each member is a truthiness test in
the source, so presence is a `Bool` except for `resources`, whose
sub-bit matters. -/
structure ServerCapabilities where
  logging : Bool
  prompts : Bool
  resources : Option ResourcesCapability
  tools : Bool
  completions : Bool
deriving Repr, DecidableEq

/-- `Client.assertCapabilityForMethod(method)` from the client source
(lines 542-593): `none` models the state before initialization
(`this._serverCapabilities === undefined`).  The switch has no default
case, so unknown methods pass. -/
def assertCapabilityForMethod (serverCapabilities : Option ServerCapabilities)
    (method : String) : Except String Unit :=
  if method = "logging/setLevel" then
    if (serverCapabilities.elim false (·.logging)) then .ok ()
    else .error ("Server does not support logging (required for " ++ method ++ ")")
  else if method = "prompts/get" ∨ method = "prompts/list" then
    if (serverCapabilities.elim false (·.prompts)) then .ok ()
    else .error ("Server does not support prompts (required for " ++ method ++ ")")
  else if method = "resources/list" ∨ method = "resources/templates/list" ∨
      method = "resources/read" ∨ method = "resources/subscribe" ∨
      method = "resources/unsubscribe" then
    match serverCapabilities.bind (·.resources) with
    | none => .error ("Server does not support resources (required for " ++ method ++ ")")
    | some rc =>
      if method = "resources/subscribe" ∧ rc.subscribe = false then
        .error ("Server does not support resource subscriptions (required for " ++ method ++ ")")
      else .ok ()
  else if method = "tools/call" ∨ method = "tools/list" then
    if (serverCapabilities.elim false (·.tools)) then .ok ()
    else .error ("Server does not support tools (required for " ++ method ++ ")")
  else if method = "completion/complete" then
    if (serverCapabilities.elim false (·.completions)) then .ok ()
    else .error ("Server does not support completions (required for " ++ method ++ ")")
  else
    .ok ()

/-- Modelled from the spec: the protocol core request pipeline
(`Protocol.request` lives in `shared/protocol.ts`, which is not among
the sources).  Per the spec, the capability assertion runs before any
frame is handed to the transport, so a failed assertion sends nothing. -/
def requestFramesSent (serverCapabilities : Option ServerCapabilities)
    (method : String) : List String :=
  match assertCapabilityForMethod serverCapabilities method with
  | .error _ => []
  | .ok _ => [method]

/-- Implementation info (`{name, version}`). -/
structure Implementation where
  name : String
  version : String
deriving Repr, DecidableEq

/-- The initialize result the server returns during the handshake, as
read by `Client.connect`. -/
structure InitializeResult where
  protocolVersion : String
  capabilities : ServerCapabilities
  serverInfo : Implementation
  instructions : Option String
deriving Repr, DecidableEq

/-- Observable client connection state touched by `Client.connect`:
the recorded server capabilities / version / instructions, the
notifications handed to the transport, and whether `close()` ran. -/
structure ClientConnection where
  serverCapabilities : Option ServerCapabilities
  serverVersion : Option Implementation
  instructions : Option String
  notificationsSent : List String
  closed : Bool
deriving Repr, DecidableEq

/-- The handshake tail of `Client.connect` (source lines 480-518), from
the arrival of the parsed initialize result: an unsupported
`protocolVersion` throws and the catch block closes the connection;
otherwise the server state is recorded and `notifications/initialized`
is sent.  `supportedProtocolVersions` stands for the constant
`SUPPORTED_PROTOCOL_VERSIONS`, whose only use here is `includes`. -/
def clientConnectFinish (supportedProtocolVersions : List String)
    (st : ClientConnection) (result : InitializeResult) :
    ClientConnection × Option String :=
  if supportedProtocolVersions.contains result.protocolVersion then
    ({ st with
        serverCapabilities := some result.capabilities,
        serverVersion := some result.serverInfo,
        instructions := result.instructions,
        notificationsSent := st.notificationsSent ++ ["notifications/initialized"] },
     none)
  else
    ({ st with closed := true },
     some ("Server\x27s protocol version is not supported: " ++ result.protocolVersion))

/-- The parsing core of a schema object (the zod `_def` the parse method
reads); a small concrete schema language covering the shapes the
completable tests exercise. -/
inductive SchemaDef where
  | strSchema
  | numSchema
  | boolSchema
deriving Repr, DecidableEq

/-- Evaluate a schema definition on an input, zod-parse style. -/
def parseSchemaDef : SchemaDef → Json → Except String Json
  | .strSchema, .str s => .ok (.str s)
  | .strSchema, _ => .error "Expected string, received other"
  | .numSchema, .num n => .ok (.num n)
  | .numSchema, _ => .error "Expected number, received other"
  | .boolSchema, .bool b => .ok (.bool b)
  | .boolSchema, _ => .error "Expected boolean, received other"

/-- A completion callback (`CompleteCallback`), observationally: current
value in, suggestions out. -/
def CompleteCallback : Type := String → List String

/-- A schema object on the JavaScript heap: its parsing definition plus
the slot the well-known symbol `COMPLETABLE_SYMBOL` occupies
(`undefined` before `completable` runs). -/
structure SchemaObject where
  sdef : SchemaDef
  completableMeta : Option CompleteCallback

/-- A fragment of the JavaScript heap holding schema objects, addressed
by reference; two aliases of one schema are two equal references. -/
def SchemaHeap : Type := List (Nat × SchemaObject)

/-- Dereference a schema object. -/
def heapGet : SchemaHeap → Nat → Option SchemaObject
  | [], _ => none
  | (r, o) :: rest, ref => if r = ref then some o else heapGet rest ref

/-- Overwrite a schema object in place. -/
def heapSet : SchemaHeap → Nat → SchemaObject → SchemaHeap
  | [], _, _ => []
  | (r, o) :: rest, ref, o2 =>
    if r = ref then (r, o2) :: rest else (r, o) :: heapSet rest ref o2

/-- `schema.parse(input)` for the schema object behind `ref`. -/
def parseAt (heap : SchemaHeap) (ref : Nat) (input : Json) : Option (Except String Json) :=
  (heapGet heap ref).map (fun o => parseSchemaDef o.sdef input)

/-- `completable(schema, complete)` from `server/completable.ts` (lines
24-32): `Object.defineProperty` installs `{complete}` under the symbol
key on the very object passed in, non-writable and non-configurable, and
the same reference is returned.  Redefining an existing non-configurable
property with a freshly allocated `{complete}` descriptor value always
throws a `TypeError`. -/
def completable (heap : SchemaHeap) (ref : Nat) (complete : CompleteCallback) :
    Except String (SchemaHeap × Nat) :=
  match heapGet heap ref with
  | none => .error "TypeError: Object.defineProperty called on non-object"
  | some o =>
    match o.completableMeta with
    | some _ => .error "TypeError: Cannot redefine property: Symbol(mcp.completable)"
    | none => .ok (heapSet heap ref { o with completableMeta := some complete }, ref)

/-- `isCompletable(schema)` from `server/completable.ts` (lines 37-39). -/
def isCompletable (heap : SchemaHeap) (ref : Nat) : Bool :=
  (heapGet heap ref).elim false (fun o => o.completableMeta.isSome)

/-- `getCompleter(schema)` from `server/completable.ts` (lines 44-47). -/
def getCompleter (heap : SchemaHeap) (ref : Nat) : Option CompleteCallback :=
  (heapGet heap ref).bind (fun o => o.completableMeta)

/-- First schema bound to a key in a `properties` list (`props[key]` for
a key of `Object.keys(props)`; parsed JSON schemas have distinct keys,
and `Object.keys` order is the entry order). -/
def propsLookup : List (String × JsonSchema) → String → Option JsonSchema
  | [], _ => none
  | (k, s) :: rest, key => if k = key then some s else propsLookup rest key

/-- `Evolves v w`: the value `w` arises from `v` by some sequence of
`applyElicitationDefaults` applications.  The value stored under a key
that is present when `applyElicitationDefaults` visits an object evolves
in exactly this sense, which is how the theorems express that present
content is never overwritten, only recursively default-filled. -/
inductive Evolves : Json → Json → Prop where
  | refl (v : Json) : Evolves v v
  | step {v w : Json} (s : JsonSchema) : Evolves v w →
      Evolves v (applyElicitationDefaults (some s) w)

theorem applyED_none (data : Json) : applyElicitationDefaults none data = data := by
  rw [applyElicitationDefaults.eq_def]

theorem applyED_some (ty : Option String) (props : List (String × JsonSchema))
    (aOf oOf : List JsonSchema) (dd : Option Json) (data : Json) :
    applyElicitationDefaults (some (.mk ty props aOf oOf dd)) data =
      if data.typeofObject then
        applyDefaultsList oOf
          (applyDefaultsList aOf
            (if ty = some "object" then applyPropertyDefaults props data else data))
      else data := by
  rw [applyElicitationDefaults.eq_def]

theorem applyPD_nil (data : Json) : applyPropertyDefaults [] data = data := by
  rw [applyPropertyDefaults.eq_def]

theorem applyPD_cons_obj (key : String) (propSchema : JsonSchema)
    (rest : List (String × JsonSchema)) (fields : List (String × Json)) :
    applyPropertyDefaults ((key, propSchema) :: rest) (.obj fields) =
      applyPropertyDefaults rest
        (.obj (propStepFields (fun v => applyElicitationDefaults (some propSchema) v)
          key propSchema.default? fields)) := by
  rw [applyPropertyDefaults.eq_def]

theorem applyPD_cons_arr (key : String) (propSchema : JsonSchema)
    (rest : List (String × JsonSchema)) (items : List (Option Json)) :
    applyPropertyDefaults ((key, propSchema) :: rest) (.arr items) =
      applyPropertyDefaults rest
        (.arr (arrStepItems (fun v => applyElicitationDefaults (some propSchema) v)
          key propSchema.default? items)) := by
  rw [applyPropertyDefaults.eq_def]

theorem applyPD_cons_scalar (key : String) (propSchema : JsonSchema)
    (rest : List (String × JsonSchema)) (data : Json) (h : data.typeofObject = false) :
    applyPropertyDefaults ((key, propSchema) :: rest) data =
      applyPropertyDefaults rest data := by
  cases data <;> simp [Json.typeofObject] at h ⊢ <;> rw [applyPropertyDefaults.eq_def]

theorem applyDL_nil (data : Json) : applyDefaultsList [] data = data := by
  rw [applyDefaultsList.eq_def]

theorem applyDL_cons (s : JsonSchema) (rest : List JsonSchema) (data : Json) :
    applyDefaultsList (s :: rest) data =
      applyDefaultsList rest (applyElicitationDefaults (some s) data) := by
  rw [applyDefaultsList.eq_def]

theorem lookupKey_setKey_self (fields : List (String × Json)) (k : String) (v : Json) :
    Json.lookupKey (Json.setKey fields k v) k = some v := by
  induction fields with
  | nil => simp [Json.setKey, Json.lookupKey]
  | cons p rest ih =>
    obtain ⟨k2, w⟩ := p
    by_cases h : k2 = k <;> simp [Json.setKey, Json.lookupKey, h, ih]

theorem lookupKey_setKey_ne (fields : List (String × Json)) (k k2 : String) (v : Json)
    (h : k ≠ k2) : Json.lookupKey (Json.setKey fields k v) k2 = Json.lookupKey fields k2 := by
  induction fields with
  | nil => simp [Json.setKey, Json.lookupKey, h]
  | cons p rest ih =>
    obtain ⟨k3, w⟩ := p
    by_cases h3 : k3 = k
    · subst h3
      simp [Json.setKey, Json.lookupKey, h]
    · simp [Json.setKey, Json.lookupKey, h3, ih]

theorem propStepFields_present (recurse : Json → Json) (key : String) (dflt : Option Json)
    (fields : List (String × Json)) (v : Json) (h : Json.lookupKey fields key = some v) :
    propStepFields recurse key dflt fields = Json.setKey fields key (recurse v) := by
  cases dflt <;> simp [propStepFields, h]

theorem propStepFields_missing_default (recurse : Json → Json) (key : String) (d : Json)
    (fields : List (String × Json)) (h : Json.lookupKey fields key = none) :
    propStepFields recurse key (some d) fields =
      Json.setKey (Json.setKey fields key d) key (recurse d) := by
  simp [propStepFields, h, lookupKey_setKey_self]

theorem propStepFields_missing_nodefault (recurse : Json → Json) (key : String)
    (fields : List (String × Json)) (h : Json.lookupKey fields key = none) :
    propStepFields recurse key none fields = fields := by
  simp [propStepFields, h]

theorem cacheGet_cacheSet_isSome {V : Type} (c : List (String × V)) (k n : String) (v : V) :
    (cacheGet (cacheSet c k v) n).isSome = true ↔ (n = k ∨ (cacheGet c n).isSome = true) := by
  induction c with
  | nil =>
    by_cases h : k = n
    · simp [cacheSet, cacheGet, h]
    · simp [cacheSet, cacheGet, h, Ne.symm h]
  | cons p rest ih =>
    obtain ⟨k2, w⟩ := p
    by_cases h2 : k2 = k
    · subst h2
      by_cases h : k2 = n
      · simp [cacheSet, cacheGet, h]
      · simp [cacheSet, cacheGet, h, Ne.symm h]
    · by_cases h : k2 = n
      · subst h
        simp [cacheSet, cacheGet, h2]
      · simp [cacheSet, cacheGet, h2, h, ih]

theorem cacheGet_cacheFill_isSome {V : Type} (gv : JsonSchema → V) (ts : List Tool)
    (c : List (String × V)) (n : String) :
    (cacheGet (cacheFill gv ts c) n).isSome = true ↔
      ((∃ t, t ∈ ts ∧ t.name = n ∧ t.outputSchema.isSome = true) ∨
        (cacheGet c n).isSome = true) := by
  induction ts generalizing c with
  | nil => simp [cacheFill]
  | cons t rest ih =>
    cases hs : t.outputSchema with
    | none =>
      simp only [cacheFill, hs]
      rw [ih]
      constructor
      · rintro (⟨t2, ht2, hn, ho⟩ | hc)
        · exact Or.inl ⟨t2, List.mem_cons_of_mem _ ht2, hn, ho⟩
        · exact Or.inr hc
      · rintro (⟨t2, ht2, hn, ho⟩ | hc)
        · rcases List.mem_cons.mp ht2 with h | h
          · subst h
            rw [hs] at ho
            simp at ho
          · exact Or.inl ⟨t2, h, hn, ho⟩
        · exact Or.inr hc
    | some s =>
      simp only [cacheFill, hs]
      rw [ih, cacheGet_cacheSet_isSome]
      constructor
      · rintro (⟨t2, ht2, hn, ho⟩ | hn | hc)
        · exact Or.inl ⟨t2, List.mem_cons_of_mem _ ht2, hn, ho⟩
        · exact Or.inl ⟨t, List.mem_cons_self _ _, hn.symm, by simp [hs]⟩
        · exact Or.inr hc
      · rintro (⟨t2, ht2, hn, ho⟩ | hc)
        · rcases List.mem_cons.mp ht2 with h | h
          · subst h
            exact Or.inr (Or.inl hn.symm)
          · exact Or.inl ⟨t2, h, hn, ho⟩
        · exact Or.inr (Or.inr hc)

/-- C1 (amended): after `listTools()` returns, the validator cache holds an
entry for exactly those tool names of the response that declare an
`outputSchema` — a tool without one has no entry — and the previous cache
contents are fully discarded (the rebuilt cache does not depend on them). -/
theorem listTools_cache_tracks_declared_output_schemas {V : Type} (gv : JsonSchema → V)
    (previous : List (String × V)) (tools : List Tool) :
    (∀ name, (getToolOutputValidator (listToolsCache gv previous tools) name).isSome = true ↔
      ∃ t, t ∈ tools ∧ t.name = name ∧ t.outputSchema.isSome = true) ∧
    listToolsCache gv previous tools = listToolsCache gv [] tools := by
  constructor
  · intro name
    rw [listToolsCache, cacheToolOutputSchemas, getToolOutputValidator,
      cacheGet_cacheFill_isSome]
    simp [cacheGet]
  · rfl

/-- C1 counterexample: a `listTools()` result containing one tool that
declares no `outputSchema` leaves the cache without an entry for that
tool, so the cache does not contain an entry for every tool name of the
response. -/
theorem listTools_cache_claim_counterexample :
    ¬ (∀ t ∈ ([⟨"t", none⟩] : List Tool),
        (getToolOutputValidator
          (listToolsCache (fun _ => ()) ([] : List (String × Unit)) [⟨"t", none⟩])
          t.name).isSome = true) := by
  intro h
  have h2 := h ⟨"t", none⟩ (by simp)
  simp [listToolsCache, cacheToolOutputSchemas, cacheFill, getToolOutputValidator,
    cacheGet] at h2

/-- C2: when a validator is cached for the called tool, `callTool` throws
`InvalidRequest` if the result carries no `structuredContent` and is not
an error; throws `InvalidParams` with a message containing "Structured
content does not match the tool output schema" when the validator
rejects the structured content; and otherwise returns the server result
unchanged. -/
theorem callTool_enforces_cached_output_schema
    (cache : List (String × CompiledValidator)) (name : String) (v : CompiledValidator)
    (r : CallToolResult) (hv : getToolOutputValidator cache name = some v) :
    (r.structuredContent = none → r.isError = false →
      callTool cache name r = .error ⟨ErrorCode.InvalidRequest,
        "Tool " ++ name ++ " has an output schema but did not return structured content"⟩) ∧
    (∀ sc msg, r.structuredContent = some sc → v sc = .res false msg →
      callTool cache name r = .error ⟨ErrorCode.InvalidParams,
        "Structured content does not match the tool\x27s output schema: " ++ msg⟩) ∧
    (∀ sc em, r.structuredContent = some sc → v sc = .res true em →
      callTool cache name r = .ok r) ∧
    (r.structuredContent = none → r.isError = true → callTool cache name r = .ok r) := by
  refine ⟨?_, ?_, ?_, ?_⟩
  · intro h1 h2
    simp [callTool, hv, h1, h2]
  · intro sc msg h1 h2
    simp [callTool, hv, h1, h2]
  · intro sc em h1 h2
    simp [callTool, hv, h1, h2]
  · intro h1 h2
    simp [callTool, hv, h1, h2]

theorem callTool_enforces_cached_output_schema_witness :
    callTool [("t", fun _ => .res false "bad")] "t"
        { structuredContent := some (.num 1), isError := false, content := [] } =
      .error ⟨ErrorCode.InvalidParams,
        "Structured content does not match the tool\x27s output schema: bad"⟩ :=
  (callTool_enforces_cached_output_schema [("t", fun _ => .res false "bad")] "t"
    (fun _ => .res false "bad")
    { structuredContent := some (.num 1), isError := false, content := [] }
    rfl).2.1 (.num 1) "bad" rfl rfl

/-- C9: when no validator is cached for the called tool — the cache was
never filled, the tool was missing from the last `tools/list` response,
or it declared no `outputSchema` — `callTool` returns the server result
unchanged with no structured-content check. -/
theorem callTool_without_validator_passes_through
    (cache : List (String × CompiledValidator)) (name : String) (r : CallToolResult)
    (h : getToolOutputValidator cache name = none) :
    callTool cache name r = .ok r := by
  simp [callTool, h]

theorem callTool_without_validator_passes_through_witness :
    callTool [] "t" { structuredContent := none, isError := false, content := [] } =
      .ok { structuredContent := none, isError := false, content := [] } :=
  callTool_without_validator_passes_through [] "t" _ rfl

/-- C3: form-mode `elicitInput` returns `decline` and `cancel` results
without ever applying the requested-schema validator (the outcome does
not depend on the validator); an `accept` result is returned exactly
when its content satisfies the validator, and otherwise the call rejects
with `InvalidParams` whose message contains "Elicitation response
content does not match requested schema". -/
theorem elicitInput_validates_only_accepted (v : CompiledValidator) (r : ElicitResult) :
    (r.action = .decline ∨ r.action = .cancel →
      ∀ v2 : CompiledValidator, elicitInputForm v2 r = .ok r) ∧
    (r.action = .accept →
      (∀ em, v (r.content.getD .null) = .res true em → elicitInputForm v r = .ok r) ∧
      (∀ msg, v (r.content.getD .null) = .res false msg →
        elicitInputForm v r = .error ⟨ErrorCode.InvalidParams,
          "Elicitation response content does not match requested schema: " ++ msg⟩)) := by
  constructor
  · rintro (h | h) v2 <;> simp [elicitInputForm, h]
  · intro h
    constructor
    · intro em hv
      simp [elicitInputForm, h, hv]
    · intro msg hv
      simp [elicitInputForm, h, hv]

theorem elicitInput_validates_only_accepted_witness :
    elicitInputForm (fun _ => .threw "boom") { action := .decline, content := none } =
      .ok { action := .decline, content := none } ∧
    elicitInputForm (fun _ => .res false "missing required field")
        { action := .accept, content := some (.obj []) } =
      .error ⟨ErrorCode.InvalidParams,
        "Elicitation response content does not match requested schema: missing required field"⟩ :=
  ⟨(elicitInput_validates_only_accepted (fun _ => .threw "boom")
      { action := .decline, content := none }).1 (Or.inl rfl) _,
   ((elicitInput_validates_only_accepted (fun _ => .res false "missing required field")
      { action := .accept, content := some (.obj []) }).2 rfl).2
      "missing required field" rfl⟩

/-- C5: an empty declared elicitation capability object supports form
mode and not url mode; declaring `url` without `form` removes form-mode
support; url mode is supported exactly when a `url` member is declared;
and the wrapped `elicitation/create` handler rejects a request whose
mode is unsupported with `InvalidParams`, without consulting the user
handler (the outcome is the same for every handler). -/
theorem elicitation_mode_support_and_gate :
    (getSupportedElicitationModes (some ⟨none, none⟩) =
      { supportsFormMode := true, supportsUrlMode := false }) ∧
    (∀ u : Unit, (getSupportedElicitationModes (some ⟨none, some u⟩)).supportsFormMode =
      false) ∧
    (∀ c : ElicitationCapability,
      (getSupportedElicitationModes (some c)).supportsUrlMode = c.url.isSome) ∧
    (∀ (caps : Option ElicitationCapability) (params : ElicitParams)
        (h1 h2 : Unit → ElicitResult),
      ((params.mode = .form ∧
          (getSupportedElicitationModes caps).supportsFormMode = false) ∨
        (params.mode = .url ∧
          (getSupportedElicitationModes caps).supportsUrlMode = false)) →
      (∃ m, wrappedElicitationHandler caps params h1 =
        .error ⟨ErrorCode.InvalidParams, m⟩) ∧
      wrappedElicitationHandler caps params h1 = wrappedElicitationHandler caps params h2) := by
  refine ⟨rfl, fun u => rfl, fun c => rfl, ?_⟩
  rintro caps params h1 h2 (⟨hm, hs⟩ | ⟨hm, hs⟩)
  · constructor
    · exact ⟨"Client does not support form-mode elicitation requests",
        by simp [wrappedElicitationHandler, hm, hs]⟩
    · simp [wrappedElicitationHandler, hm, hs]
  · have hform : params.mode ≠ ElicitMode.form := by
      rw [hm]
      intro hc
      cases hc
    constructor
    · exact ⟨"Client does not support URL-mode elicitation requests",
        by simp [wrappedElicitationHandler, hm, hs, hform]⟩
    · simp [wrappedElicitationHandler, hm, hs, hform]

theorem elicitation_mode_support_and_gate_witness :
    wrappedElicitationHandler (some ⟨none, some ()⟩) ⟨.form, none⟩
        (fun _ => { action := .accept, content := some (.obj []) }) =
      wrappedElicitationHandler (some ⟨none, some ()⟩) ⟨.form, none⟩
        (fun _ => { action := .cancel, content := none }) :=
  (elicitation_mode_support_and_gate.2.2.2 (some ⟨none, some ()⟩) ⟨.form, none⟩
    (fun _ => { action := .accept, content := some (.obj []) })
    (fun _ => { action := .cancel, content := none })
    (Or.inl ⟨rfl, rfl⟩)).2

/-- C6: the client capability gate — for each listed request method,
`assertCapabilityForMethod` errors with "Server does not support X
(required for Y)" exactly when the negotiated server capabilities lack
the required capability (`resources/subscribe` additionally requires the
`subscribe` sub-bit); `initialize` and `ping` never error; and a failed
assertion means no frame is handed to the transport. -/
theorem assertCapabilityForMethod_gates_requests (caps : Option ServerCapabilities) :
    (assertCapabilityForMethod caps "logging/setLevel" =
      if caps.elim false (·.logging) then .ok ()
      else .error "Server does not support logging (required for logging/setLevel)") ∧
    (assertCapabilityForMethod caps "prompts/get" =
      if caps.elim false (·.prompts) then .ok ()
      else .error "Server does not support prompts (required for prompts/get)") ∧
    (assertCapabilityForMethod caps "prompts/list" =
      if caps.elim false (·.prompts) then .ok ()
      else .error "Server does not support prompts (required for prompts/list)") ∧
    (assertCapabilityForMethod caps "resources/list" =
      match caps.bind (·.resources) with
      | none => .error "Server does not support resources (required for resources/list)"
      | some _ => .ok ()) ∧
    (assertCapabilityForMethod caps "resources/templates/list" =
      match caps.bind (·.resources) with
      | none => .error "Server does not support resources (required for resources/templates/list)"
      | some _ => .ok ()) ∧
    (assertCapabilityForMethod caps "resources/read" =
      match caps.bind (·.resources) with
      | none => .error "Server does not support resources (required for resources/read)"
      | some _ => .ok ()) ∧
    (assertCapabilityForMethod caps "resources/unsubscribe" =
      match caps.bind (·.resources) with
      | none => .error "Server does not support resources (required for resources/unsubscribe)"
      | some _ => .ok ()) ∧
    (assertCapabilityForMethod caps "resources/subscribe" =
      match caps.bind (·.resources) with
      | none => .error "Server does not support resources (required for resources/subscribe)"
      | some rc =>
        if rc.subscribe = false then
          .error "Server does not support resource subscriptions (required for resources/subscribe)"
        else .ok ()) ∧
    (assertCapabilityForMethod caps "tools/call" =
      if caps.elim false (·.tools) then .ok ()
      else .error "Server does not support tools (required for tools/call)") ∧
    (assertCapabilityForMethod caps "tools/list" =
      if caps.elim false (·.tools) then .ok ()
      else .error "Server does not support tools (required for tools/list)") ∧
    (assertCapabilityForMethod caps "completion/complete" =
      if caps.elim false (·.completions) then .ok ()
      else .error "Server does not support completions (required for completion/complete)") ∧
    (assertCapabilityForMethod caps "initialize" = .ok ()) ∧
    (assertCapabilityForMethod caps "ping" = .ok ()) ∧
    (∀ method e, assertCapabilityForMethod caps method = .error e →
      requestFramesSent caps method = []) := by
  refine ⟨?_, ?_, ?_, ?_, ?_, ?_, ?_, ?_, ?_, ?_, ?_, ?_, ?_, ?_⟩
  case _ => simp [assertCapabilityForMethod]
  case _ => simp [assertCapabilityForMethod]
  case _ => simp [assertCapabilityForMethod]
  case _ => simp [assertCapabilityForMethod]
  case _ => simp [assertCapabilityForMethod]
  case _ => simp [assertCapabilityForMethod]
  case _ => simp [assertCapabilityForMethod]
  case _ => simp [assertCapabilityForMethod]
  case _ => simp [assertCapabilityForMethod]
  case _ => simp [assertCapabilityForMethod]
  case _ => simp [assertCapabilityForMethod]
  case _ => simp [assertCapabilityForMethod]
  case _ => simp [assertCapabilityForMethod]
  case _ =>
    intro method e h
    simp [requestFramesSent, h]

theorem assertCapabilityForMethod_gates_requests_witness :
    requestFramesSent none "tools/call" = [] :=
  (assertCapabilityForMethod_gates_requests none).2.2.2.2.2.2.2.2.2.2.2.2.2
    "tools/call" "Server does not support tools (required for tools/call)" rfl

/-- C7: the connect handshake throws and closes the connection when the
server-chosen protocol version is not in the client supported set;
when it is supported, the server capabilities are recorded and the
`notifications/initialized` notification is sent. -/
theorem connect_handshake_version_negotiation (supported : List String)
    (st : ClientConnection) (result : InitializeResult) :
    (supported.contains result.protocolVersion = false →
      (clientConnectFinish supported st result).2 =
        some ("Server\x27s protocol version is not supported: " ++ result.protocolVersion) ∧
      (clientConnectFinish supported st result).1.closed = true) ∧
    (supported.contains result.protocolVersion = true →
      (clientConnectFinish supported st result).2 = none ∧
      (clientConnectFinish supported st result).1.serverCapabilities =
        some result.capabilities ∧
      "notifications/initialized" ∈
        (clientConnectFinish supported st result).1.notificationsSent) := by
  constructor
  · intro h
    simp at h
    simp [clientConnectFinish, h]
  · intro h
    simp at h
    simp [clientConnectFinish, h]

theorem connect_handshake_version_negotiation_witness :
    (clientConnectFinish ["2025-06-18"]
      { serverCapabilities := none, serverVersion := none, instructions := none,
        notificationsSent := [], closed := false }
      { protocolVersion := "1999-01-01",
        capabilities :=
          { logging := false, prompts := false, resources := none, tools := false,
            completions := false },
        serverInfo := { name := "srv", version := "1.0" },
        instructions := none }).1.closed = true ∧
    "notifications/initialized" ∈
      (clientConnectFinish ["2025-06-18"]
        { serverCapabilities := none, serverVersion := none, instructions := none,
          notificationsSent := [], closed := false }
        { protocolVersion := "2025-06-18",
          capabilities :=
            { logging := false, prompts := false, resources := none, tools := false,
              completions := false },
          serverInfo := { name := "srv", version := "1.0" },
          instructions := none }).1.notificationsSent :=
  ⟨((connect_handshake_version_negotiation ["2025-06-18"] _ _).1 (by decide)).2,
   ((connect_handshake_version_negotiation ["2025-06-18"] _ _).2 (by decide)).2.2⟩

theorem heapGet_heapSet_self (heap : SchemaHeap) (ref : Nat) (o o2 : SchemaObject)
    (h : heapGet heap ref = some o) : heapGet (heapSet heap ref o2) ref = some o2 := by
  induction heap with
  | nil => simp [heapGet] at h
  | cons p rest ih =>
    obtain ⟨r, w⟩ := p
    by_cases hr : r = ref
    · simp [heapGet, heapSet, hr]
    · simp [heapGet, hr] at h
      simp [heapGet, heapSet, hr, ih h]

theorem heapGet_heapSet_ne (heap : SchemaHeap) (ref r2 : Nat) (o2 : SchemaObject)
    (h : ref ≠ r2) : heapGet (heapSet heap ref o2) r2 = heapGet heap r2 := by
  induction heap with
  | nil => simp [heapGet, heapSet]
  | cons p rest ih =>
    obtain ⟨r, w⟩ := p
    by_cases hr : r = ref
    · subst hr
      simp [heapGet, heapSet, h]
    · simp [heapGet, heapSet, hr, ih]

theorem completable_ok_dest (heap : SchemaHeap) (ref : Nat) (c : CompleteCallback)
    (heap2 : SchemaHeap) (ref2 : Nat)
    (h : completable heap ref c = .ok (heap2, ref2)) :
    ∃ o, heapGet heap ref = some o ∧ o.completableMeta = none ∧ ref2 = ref ∧
      heap2 = heapSet heap ref { o with completableMeta := some c } := by
  unfold completable at h
  cases hg : heapGet heap ref with
  | none => rw [hg] at h; cases h
  | some o =>
    rw [hg] at h
    cases hm : o.completableMeta with
    | some _ => simp [hm] at h
    | none =>
      simp [hm, Prod.ext_iff] at h
      exact ⟨o, rfl, hm, h.2.symm, h.1.symm⟩

/-- C8: after a successful `completable(s, c)`, the returned schema
satisfies `isCompletable`, `getCompleter` returns exactly `c`, and
parsing behaves identically to the original schema on every input. -/
theorem completable_preserves_parse_behavior (heap : SchemaHeap) (ref : Nat)
    (c : CompleteCallback) (heap2 : SchemaHeap) (ref2 : Nat)
    (h : completable heap ref c = .ok (heap2, ref2)) :
    isCompletable heap2 ref2 = true ∧
    getCompleter heap2 ref2 = some c ∧
    (∀ input, parseAt heap2 ref2 input = parseAt heap ref input) := by
  obtain ⟨o, hg, hm, hr, hh⟩ := completable_ok_dest heap ref c heap2 ref2 h
  subst hr
  subst hh
  have hgot := heapGet_heapSet_self heap ref2 o { o with completableMeta := some c } hg
  refine ⟨?_, ?_, ?_⟩
  · simp [isCompletable, hgot]
  · simp [getCompleter, hgot]
  · intro input
    simp [parseAt, hgot, hg]

theorem completable_preserves_parse_behavior_witness :
    isCompletable
      [(0, { sdef := .strSchema, completableMeta := some (fun s => [s]) })] 0 = true ∧
    getCompleter
      [(0, { sdef := .strSchema, completableMeta := some (fun s => [s]) })] 0 =
      some (fun s => [s]) ∧
    parseAt [(0, { sdef := .strSchema, completableMeta := some (fun s => [s]) })] 0
      (.str "test") =
      parseAt [(0, { sdef := .strSchema, completableMeta := none })] 0 (.str "test") := by
  have h := completable_preserves_parse_behavior
    [(0, { sdef := .strSchema, completableMeta := none })] 0 (fun s => [s])
    [(0, { sdef := .strSchema, completableMeta := some (fun s => [s]) })] 0 rfl
  exact ⟨h.1, h.2.1, h.2.2 (.str "test")⟩

/-- C10: `completable` mutates its argument in place — the returned
reference is the argument reference, every other heap object is
untouched, every pre-existing alias of the argument object observes the
completer — and a second call on the same schema object throws a
`TypeError` instead of replacing the completer. -/
theorem completable_in_place_and_redefinition_rejected (heap : SchemaHeap) (ref : Nat)
    (c : CompleteCallback) (heap2 : SchemaHeap) (ref2 : Nat)
    (h : completable heap ref c = .ok (heap2, ref2)) :
    ref2 = ref ∧
    isCompletable heap2 ref = true ∧
    (∀ r, r ≠ ref → heapGet heap2 r = heapGet heap r) ∧
    (∀ c2 : CompleteCallback, completable heap2 ref c2 =
      .error "TypeError: Cannot redefine property: Symbol(mcp.completable)") := by
  obtain ⟨o, hg, hm, hr, hh⟩ := completable_ok_dest heap ref c heap2 ref2 h
  subst hr
  subst hh
  have hgot := heapGet_heapSet_self heap ref2 o { o with completableMeta := some c } hg
  refine ⟨rfl, ?_, ?_, ?_⟩
  · simp [isCompletable, hgot]
  · intro r hrr
    exact heapGet_heapSet_ne heap ref2 r _ (fun he => hrr he.symm)
  · intro c2
    simp [completable, hgot]

theorem completable_in_place_and_redefinition_rejected_witness :
    completable
      [(0, { sdef := .strSchema, completableMeta := some (fun _ => ["x"]) })] 0
      (fun _ => ["y"]) =
      .error "TypeError: Cannot redefine property: Symbol(mcp.completable)" :=
  (completable_in_place_and_redefinition_rejected
    [(0, { sdef := .strSchema, completableMeta := none })] 0 (fun _ => ["x"])
    [(0, { sdef := .strSchema, completableMeta := some (fun _ => ["x"]) })] 0
    rfl).2.2.2 (fun _ => ["y"])

theorem applyED_scalar (s : JsonSchema) (data : Json) (h : data.typeofObject = false) :
    applyElicitationDefaults (some s) data = data := by
  cases s with
  | mk ty props aOf oOf dd =>
    rw [applyED_some, if_neg (by simp [h])]

theorem Evolves.trans {a b c : Json} (e1 : Evolves a b) (e2 : Evolves b c) : Evolves a c := by
  induction e2 with
  | refl => exact e1
  | step s e ih => exact .step s ih

theorem Evolves_scalar {v w : Json} (h : v.typeofObject = false) (e : Evolves v w) :
    w = v := by
  induction e with
  | refl => rfl
  | step s e ih =>
    rw [ih, applyED_scalar s v h]

theorem applyPD_key_evolution (props : List (String × JsonSchema))
    (fields : List (String × Json)) :
    ∃ fields2, applyPropertyDefaults props (.obj fields) = .obj fields2 ∧
      ∀ k v, Json.lookupKey fields k = some v →
        ∃ w, Json.lookupKey fields2 k = some w ∧ Evolves v w := by
  induction props generalizing fields with
  | nil => exact ⟨fields, applyPD_nil _, fun k v hv => ⟨v, hv, .refl v⟩⟩
  | cons p rest ih =>
    obtain ⟨key, ps⟩ := p
    rw [applyPD_cons_obj]
    obtain ⟨fields2, happ, hkeys⟩ :=
      ih (propStepFields (fun v => applyElicitationDefaults (some ps) v) key
        ps.default? fields)
    refine ⟨fields2, happ, ?_⟩
    intro k v hv
    have step : ∃ w1,
        Json.lookupKey (propStepFields (fun v => applyElicitationDefaults (some ps) v) key
          ps.default? fields) k = some w1 ∧ Evolves v w1 := by
      by_cases hk : key = k
      · subst hk
        rw [propStepFields_present _ key ps.default? fields v hv]
        exact ⟨applyElicitationDefaults (some ps) v, lookupKey_setKey_self .., .step ps (.refl v)⟩
      · cases hl : Json.lookupKey fields key with
        | some v0 =>
          rw [propStepFields_present _ key ps.default? fields v0 hl,
            lookupKey_setKey_ne _ _ _ _ hk]
          exact ⟨v, hv, .refl v⟩
        | none =>
          cases hd : ps.default? with
          | some d =>
            rw [propStepFields_missing_default _ key d fields hl,
              lookupKey_setKey_ne _ _ _ _ hk, lookupKey_setKey_ne _ _ _ _ hk]
            exact ⟨v, hv, .refl v⟩
          | none =>
            rw [propStepFields_missing_nodefault _ key fields hl]
            exact ⟨v, hv, .refl v⟩
    obtain ⟨w1, hw1, he1⟩ := step
    obtain ⟨w, hw, he2⟩ := hkeys k w1 hw1
    exact ⟨w, hw, he1.trans he2⟩

mutual

theorem applyED_key_evolution (s : JsonSchema) (fields : List (String × Json)) :
    ∃ fields2, applyElicitationDefaults (some s) (.obj fields) = .obj fields2 ∧
      ∀ k v, Json.lookupKey fields k = some v →
        ∃ w, Json.lookupKey fields2 k = some w ∧ Evolves v w := by
  cases s with
  | mk ty props aOf oOf dd =>
    rw [applyED_some]
    simp only [Json.typeofObject, if_true]
    by_cases hty : ty = some "object"
    · rw [if_pos hty]
      obtain ⟨f1, h1, k1⟩ := applyPD_key_evolution props fields
      rw [h1]
      obtain ⟨f2, h2, k2⟩ := applyDL_key_evolution aOf f1
      rw [h2]
      obtain ⟨f3, h3, k3⟩ := applyDL_key_evolution oOf f2
      refine ⟨f3, h3, ?_⟩
      intro k v hv
      obtain ⟨w1, hw1, e1⟩ := k1 k v hv
      obtain ⟨w2, hw2, e2⟩ := k2 k w1 hw1
      obtain ⟨w3, hw3, e3⟩ := k3 k w2 hw2
      exact ⟨w3, hw3, (e1.trans e2).trans e3⟩
    · rw [if_neg hty]
      obtain ⟨f2, h2, k2⟩ := applyDL_key_evolution aOf fields
      rw [h2]
      obtain ⟨f3, h3, k3⟩ := applyDL_key_evolution oOf f2
      refine ⟨f3, h3, ?_⟩
      intro k v hv
      obtain ⟨w2, hw2, e2⟩ := k2 k v hv
      obtain ⟨w3, hw3, e3⟩ := k3 k w2 hw2
      exact ⟨w3, hw3, e2.trans e3⟩
termination_by sizeOf s + 1
decreasing_by
  all_goals simp_wf
  all_goals omega

theorem applyDL_key_evolution (subs : List JsonSchema) (fields : List (String × Json)) :
    ∃ fields2, applyDefaultsList subs (.obj fields) = .obj fields2 ∧
      ∀ k v, Json.lookupKey fields k = some v →
        ∃ w, Json.lookupKey fields2 k = some w ∧ Evolves v w := by
  cases subs with
  | nil => exact ⟨fields, applyDL_nil _, fun k v hv => ⟨v, hv, .refl v⟩⟩
  | cons s rest =>
    rw [applyDL_cons]
    obtain ⟨f1, h1, k1⟩ := applyED_key_evolution s fields
    rw [h1]
    obtain ⟨f2, h2, k2⟩ := applyDL_key_evolution rest f1
    refine ⟨f2, h2, ?_⟩
    intro k v hv
    obtain ⟨w1, hw1, e1⟩ := k1 k v hv
    obtain ⟨w2, hw2, e2⟩ := k2 k w1 hw1
    exact ⟨w2, hw2, e1.trans e2⟩
termination_by sizeOf subs + 1
decreasing_by
  all_goals simp_wf
  all_goals omega

end

theorem lookupKey_propStepFields_ne (recurse : Json → Json) (k0 key : String)
    (dflt : Option Json) (fields : List (String × Json)) (hk : k0 ≠ key) :
    Json.lookupKey (propStepFields recurse k0 dflt fields) key =
      Json.lookupKey fields key := by
  cases hl : Json.lookupKey fields k0 with
  | some v0 =>
    rw [propStepFields_present _ k0 _ fields v0 hl, lookupKey_setKey_ne _ _ _ _ hk]
  | none =>
    cases hd : dflt with
    | some d =>
      rw [propStepFields_missing_default _ k0 d fields hl,
        lookupKey_setKey_ne _ _ _ _ hk, lookupKey_setKey_ne _ _ _ _ hk]
    | none =>
      rw [propStepFields_missing_nodefault _ k0 fields hl]

theorem applyPD_first_transform (props : List (String × JsonSchema)) (key : String)
    (ps : JsonSchema) (fields : List (String × Json)) (v : Json)
    (hp : propsLookup props key = some ps)
    (hv : Json.lookupKey fields key = some v) :
    ∃ fields2 w, applyPropertyDefaults props (.obj fields) = .obj fields2 ∧
      Json.lookupKey fields2 key = some w ∧
      Evolves (applyElicitationDefaults (some ps) v) w := by
  revert hp hv
  induction props generalizing fields with
  | nil =>
    intro hp hv
    simp [propsLookup] at hp
  | cons p rest ih =>
    obtain ⟨k0, ps0⟩ := p
    intro hp hv
    by_cases hk : k0 = key
    · subst hk
      simp [propsLookup] at hp
      subst hp
      rw [applyPD_cons_obj, propStepFields_present _ k0 ps0.default? fields v hv]
      obtain ⟨fields2, happ, hkeys⟩ := applyPD_key_evolution rest
        (Json.setKey fields k0 (applyElicitationDefaults (some ps0) v))
      obtain ⟨w, hw, he⟩ := hkeys k0 _ (lookupKey_setKey_self ..)
      exact ⟨fields2, w, happ, hw, he⟩
    · have hp2 : propsLookup rest key = some ps := by
        simpa [propsLookup, hk] using hp
      rw [applyPD_cons_obj]
      exact ih _ hp2 ((lookupKey_propStepFields_ne _ k0 key _ fields hk).trans hv)

theorem applyPD_fill (props : List (String × JsonSchema)) (key : String)
    (ps : JsonSchema) (d : Json) (fields : List (String × Json))
    (hp : propsLookup props key = some ps)
    (hd : ps.default? = some d)
    (hmiss : Json.lookupKey fields key = none) :
    ∃ fields2 w, applyPropertyDefaults props (.obj fields) = .obj fields2 ∧
      Json.lookupKey fields2 key = some w ∧ Evolves d w := by
  revert hp hmiss
  induction props generalizing fields with
  | nil =>
    intro hp hmiss
    simp [propsLookup] at hp
  | cons p rest ih =>
    obtain ⟨k0, ps0⟩ := p
    intro hp hmiss
    by_cases hk : k0 = key
    · subst hk
      simp [propsLookup] at hp
      subst hp
      rw [applyPD_cons_obj, hd, propStepFields_missing_default _ k0 d fields hmiss]
      obtain ⟨fields2, happ, hkeys⟩ := applyPD_key_evolution rest
        (Json.setKey (Json.setKey fields k0 d) k0 (applyElicitationDefaults (some ps0) d))
      obtain ⟨w, hw, he⟩ := hkeys k0 _ (lookupKey_setKey_self ..)
      exact ⟨fields2, w, happ, hw, (Evolves.step ps0 (.refl d)).trans he⟩
    · have hp2 : propsLookup rest key = some ps := by
        simpa [propsLookup, hk] using hp
      rw [applyPD_cons_obj]
      exact ih _ hp2 ((lookupKey_propStepFields_ne _ k0 key _ fields hk).trans hmiss)

theorem applyED_fill (props : List (String × JsonSchema)) (aOf oOf : List JsonSchema)
    (dd : Option Json) (key : String) (ps : JsonSchema) (d : Json)
    (fields : List (String × Json))
    (hp : propsLookup props key = some ps)
    (hd : ps.default? = some d)
    (hmiss : Json.lookupKey fields key = none) :
    ∃ fields2 w,
      applyElicitationDefaults (some (.mk (some "object") props aOf oOf dd))
        (.obj fields) = .obj fields2 ∧
      Json.lookupKey fields2 key = some w ∧ Evolves d w := by
  rw [applyED_some]
  simp only [Json.typeofObject, if_true, if_pos rfl]
  obtain ⟨f1, w1, h1, hw1, e1⟩ := applyPD_fill props key ps d fields hp hd hmiss
  rw [h1]
  obtain ⟨f2, h2, k2⟩ := applyDL_key_evolution aOf f1
  rw [h2]
  obtain ⟨f3, h3, k3⟩ := applyDL_key_evolution oOf f2
  obtain ⟨w2, hw2, e2⟩ := k2 key w1 hw1
  obtain ⟨w3, hw3, e3⟩ := k3 key w2 hw2
  exact ⟨f3, w3, h3, hw3, (e1.trans e2).trans e3⟩

theorem applyED_first_transform (props : List (String × JsonSchema))
    (aOf oOf : List JsonSchema) (dd : Option Json) (key : String) (ps : JsonSchema)
    (v : Json) (fields : List (String × Json))
    (hp : propsLookup props key = some ps)
    (hv : Json.lookupKey fields key = some v) :
    ∃ fields2 w,
      applyElicitationDefaults (some (.mk (some "object") props aOf oOf dd))
        (.obj fields) = .obj fields2 ∧
      Json.lookupKey fields2 key = some w ∧
      Evolves (applyElicitationDefaults (some ps) v) w := by
  rw [applyED_some]
  simp only [Json.typeofObject, if_true, if_pos rfl]
  obtain ⟨f1, w1A, h1, hw1, e1⟩ := applyPD_first_transform props key ps fields v hp hv
  rw [h1]
  obtain ⟨f2, h2, k2⟩ := applyDL_key_evolution aOf f1
  rw [h2]
  obtain ⟨f3, h3, k3⟩ := applyDL_key_evolution oOf f2
  obtain ⟨w2, hw2, e2⟩ := k2 key w1A hw1
  obtain ⟨w3, hw3, e3⟩ := k3 key w2 hw2
  exact ⟨f3, w3, h3, hw3, (e1.trans e2).trans e3⟩

theorem applyED_fill_or_keep (b : JsonSchema) (key : String) (ps : JsonSchema)
    (fields : List (String × Json))
    (hb : b.type = some "object")
    (hp : propsLookup b.properties key = some ps)
    (hd : ps.default?.isSome = true) :
    ∃ fields2, applyElicitationDefaults (some b) (.obj fields) = .obj fields2 ∧
      (Json.lookupKey fields2 key).isSome = true := by
  cases b with
  | mk ty props aOf oOf dd =>
    simp only [JsonSchema.type] at hb
    simp only [JsonSchema.properties] at hp
    subst hb
    cases hl : Json.lookupKey fields key with
    | none =>
      obtain ⟨d, hdd⟩ := Option.isSome_iff_exists.mp hd
      obtain ⟨f2, w, h2, hw, _⟩ := applyED_fill props aOf oOf dd key ps d fields hp hdd hl
      exact ⟨f2, h2, by simp [hw]⟩
    | some v =>
      obtain ⟨f2, h2, k2⟩ := applyED_key_evolution (.mk (some "object") props aOf oOf dd) fields
      obtain ⟨w, hw, _⟩ := k2 key v hl
      exact ⟨f2, h2, by simp [hw]⟩

theorem applyDL_branch_fill (subs : List JsonSchema) (b : JsonSchema) (key : String)
    (ps : JsonSchema) (fields : List (String × Json))
    (hmem : b ∈ subs)
    (hb : b.type = some "object")
    (hp : propsLookup b.properties key = some ps)
    (hd : ps.default?.isSome = true) :
    ∃ fields2, applyDefaultsList subs (.obj fields) = .obj fields2 ∧
      (Json.lookupKey fields2 key).isSome = true := by
  induction subs generalizing fields with
  | nil => cases hmem
  | cons s rest ih =>
    rw [applyDL_cons]
    rcases List.mem_cons.mp hmem with h | h
    · subst h
      obtain ⟨f1, h1, hsome⟩ := applyED_fill_or_keep b key ps fields hb hp hd
      rw [h1]
      obtain ⟨f2, h2, k2⟩ := applyDL_key_evolution rest f1
      obtain ⟨v, hv⟩ := Option.isSome_iff_exists.mp hsome
      obtain ⟨w, hw, _⟩ := k2 key v hv
      exact ⟨f2, h2, by simp [hw]⟩
    · obtain ⟨f1, h1, _⟩ := applyED_key_evolution s fields
      rw [h1]
      exact ih f1 h

theorem Evolves_obj_key {v w : Json} (e : Evolves v w) (sub : List (String × Json))
    (key2 : String) (hv : v = .obj sub) (hk : (Json.lookupKey sub key2).isSome = true) :
    ∃ sub2, w = .obj sub2 ∧ (Json.lookupKey sub2 key2).isSome = true := by
  induction e with
  | refl => exact ⟨sub, hv, hk⟩
  | step sch prem ih =>
    obtain ⟨sub1, hw1, hk1⟩ := ih
    subst hw1
    obtain ⟨sub2, h2, k2⟩ := applyED_key_evolution sch sub1
    obtain ⟨v2, hv2⟩ := Option.isSome_iff_exists.mp hk1
    obtain ⟨w2, hw2, _⟩ := k2 key2 v2 hv2
    exact ⟨sub2, h2, by simp [hw2]⟩

theorem applyED_nested_fill (props : List (String × JsonSchema))
    (aOf oOf : List JsonSchema) (dd : Option Json) (key : String) (ps : JsonSchema)
    (sub : List (String × Json)) (key2 : String) (ps2 : JsonSchema)
    (fields : List (String × Json))
    (hp : propsLookup props key = some ps)
    (hpt : ps.type = some "object")
    (hp2 : propsLookup ps.properties key2 = some ps2)
    (hd2 : ps2.default?.isSome = true)
    (hv : Json.lookupKey fields key = some (.obj sub)) :
    ∃ fields2 sub2,
      applyElicitationDefaults (some (.mk (some "object") props aOf oOf dd))
        (.obj fields) = .obj fields2 ∧
      Json.lookupKey fields2 key = some (.obj sub2) ∧
      (Json.lookupKey sub2 key2).isSome = true := by
  obtain ⟨f2, w, happ, hw, he⟩ :=
    applyED_first_transform props aOf oOf dd key ps (.obj sub) fields hp hv
  obtain ⟨sub1, h1, hsome⟩ := applyED_fill_or_keep ps key2 ps2 sub hpt hp2 hd2
  rw [h1] at he
  obtain ⟨sub2, hw2, hk2⟩ := Evolves_obj_key he sub1 key2 rfl hsome
  subst hw2
  exact ⟨f2, sub2, happ, hw, hk2⟩

/-- C4: when the client declared `elicitation.form.applyDefaults` and a
form-mode elicitation with a requested schema is accepted with object
content, the wrapper fills every missing property whose schema carries a
`default` with that default value (a scalar default arrives verbatim),
recurses into nested objects and into every `anyOf` / `oneOf` branch,
and never overwrites a property already present (a present scalar —
neither object nor array — is returned unchanged; a present object or
array is only further default-filled by recursive applications, as
captured by `Evolves`); when `applyDefaults` was not declared, the
handler result is returned exactly as produced. -/
theorem elicitation_applyDefaults_fills_and_preserves
    (caps : Option ElicitationCapability) (params : ElicitParams)
    (handler : Unit → ElicitResult) :
    (((caps.bind (·.form)).elim false (·.applyDefaults) = false) →
      (params.mode = .form → (getSupportedElicitationModes caps).supportsFormMode = true) →
      (params.mode = .url → (getSupportedElicitationModes caps).supportsUrlMode = true) →
      wrappedElicitationHandler caps params handler = .ok (handler ())) ∧
    (∀ (s : JsonSchema) (fields : List (String × Json)),
      ((caps.bind (·.form)).elim false (·.applyDefaults) = true) →
      (getSupportedElicitationModes caps).supportsFormMode = true →
      params = ⟨.form, some s⟩ →
      handler () = ⟨.accept, some (.obj fields)⟩ →
      ∃ fields2,
        wrappedElicitationHandler caps params handler =
          .ok ⟨.accept, some (.obj fields2)⟩ ∧
        (∀ ty props aOf oOf dd key ps d, s = .mk ty props aOf oOf dd →
          ty = some "object" →
          propsLookup props key = some ps → ps.default? = some d →
          Json.lookupKey fields key = none →
          ∃ w, Json.lookupKey fields2 key = some w ∧ Evolves d w ∧
            (d.typeofObject = false → w = d)) ∧
        (∀ key v, Json.lookupKey fields key = some v →
          ∃ w, Json.lookupKey fields2 key = some w ∧ Evolves v w ∧
            (v.typeofObject = false → w = v)) ∧
        (∀ b key ps, (b ∈ s.anyOf ∨ b ∈ s.oneOf) → b.type = some "object" →
          propsLookup b.properties key = some ps → ps.default?.isSome = true →
          (Json.lookupKey fields2 key).isSome = true) ∧
        (∀ ty props aOf oOf dd key ps sub key2 ps2, s = .mk ty props aOf oOf dd →
          ty = some "object" → propsLookup props key = some ps →
          ps.type = some "object" → propsLookup ps.properties key2 = some ps2 →
          ps2.default?.isSome = true →
          Json.lookupKey fields key = some (.obj sub) →
          ∃ sub2, Json.lookupKey fields2 key = some (.obj sub2) ∧
            (Json.lookupKey sub2 key2).isSome = true)) := by
  constructor
  · intro hoff hform hurl
    cases hm : params.mode with
    | form =>
      have hsup := hform hm
      simp [wrappedElicitationHandler, hm, hsup, hoff]
    | url =>
      have hsup := hurl hm
      simp [wrappedElicitationHandler, hm, hsup]
  · intro s fields hon hsup hparams hres
    subst hparams
    have hwrap : wrappedElicitationHandler caps ⟨.form, some s⟩ handler =
        .ok ⟨.accept, some (applyElicitationDefaults (some s) (.obj fields))⟩ := by
      simp [wrappedElicitationHandler, hsup, hres, hon]
    obtain ⟨fields2, happ, hkeys⟩ := applyED_key_evolution s fields
    rw [happ] at hwrap
    refine ⟨fields2, hwrap, ?_, ?_, ?_, ?_⟩
    · intro ty props aOf oOf dd key ps d hs hty hp hd hmiss
      subst hs
      subst hty
      obtain ⟨f2, w, happ2, hw, he⟩ := applyED_fill props aOf oOf dd key ps d fields hp hd hmiss
      rw [happ] at happ2
      cases happ2
      exact ⟨w, hw, he, fun hno => Evolves_scalar hno he⟩
    · intro key v hv
      obtain ⟨w, hw, he⟩ := hkeys key v hv
      exact ⟨w, hw, he, fun hno => Evolves_scalar hno he⟩
    · intro b key ps hmem hb hp hd
      cases s with
      | mk ty props aOf oOf dd =>
        simp only [JsonSchema.anyOf, JsonSchema.oneOf] at hmem
        rw [applyED_some] at happ
        simp only [Json.typeofObject, if_true] at happ
        rcases hmem with hmem | hmem
        · -- branch in anyOf
          rcases hd1 : (if ty = some "object" then applyPropertyDefaults props (.obj fields)
              else (.obj fields)) with _ | _ | _ | _ | _ | f1
          case _ =>
            exact absurd hd1 (by
              by_cases hty : ty = some "object"
              · rw [if_pos hty]
                obtain ⟨f1, h1, _⟩ := applyPD_key_evolution props fields
                simp [h1]
              · simp [if_neg hty])
          case _ =>
            exact absurd hd1 (by
              by_cases hty : ty = some "object"
              · rw [if_pos hty]
                obtain ⟨f1, h1, _⟩ := applyPD_key_evolution props fields
                simp [h1]
              · simp [if_neg hty])
          case _ =>
            exact absurd hd1 (by
              by_cases hty : ty = some "object"
              · rw [if_pos hty]
                obtain ⟨f1, h1, _⟩ := applyPD_key_evolution props fields
                simp [h1]
              · simp [if_neg hty])
          case _ =>
            exact absurd hd1 (by
              by_cases hty : ty = some "object"
              · rw [if_pos hty]
                obtain ⟨f1, h1, _⟩ := applyPD_key_evolution props fields
                simp [h1]
              · simp [if_neg hty])
          case _ =>
            exact absurd hd1 (by
              by_cases hty : ty = some "object"
              · rw [if_pos hty]
                obtain ⟨f1, h1, _⟩ := applyPD_key_evolution props fields
                simp [h1]
              · simp [if_neg hty])
          case _ =>
            rw [hd1] at happ
            obtain ⟨fA, hA, hAs⟩ := applyDL_branch_fill aOf b key ps f1 hmem hb hp hd
            rw [hA] at happ
            obtain ⟨fB, hB, kB⟩ := applyDL_key_evolution oOf fA
            rw [hB] at happ
            cases happ
            obtain ⟨v, hv⟩ := Option.isSome_iff_exists.mp hAs
            obtain ⟨w, hw, _⟩ := kB key v hv
            simp [hw]
        · -- branch in oneOf
          rcases hd1 : (if ty = some "object" then applyPropertyDefaults props (.obj fields)
              else (.obj fields)) with _ | _ | _ | _ | _ | f1
          case _ =>
            exact absurd hd1 (by
              by_cases hty : ty = some "object"
              · rw [if_pos hty]
                obtain ⟨f1, h1, _⟩ := applyPD_key_evolution props fields
                simp [h1]
              · simp [if_neg hty])
          case _ =>
            exact absurd hd1 (by
              by_cases hty : ty = some "object"
              · rw [if_pos hty]
                obtain ⟨f1, h1, _⟩ := applyPD_key_evolution props fields
                simp [h1]
              · simp [if_neg hty])
          case _ =>
            exact absurd hd1 (by
              by_cases hty : ty = some "object"
              · rw [if_pos hty]
                obtain ⟨f1, h1, _⟩ := applyPD_key_evolution props fields
                simp [h1]
              · simp [if_neg hty])
          case _ =>
            exact absurd hd1 (by
              by_cases hty : ty = some "object"
              · rw [if_pos hty]
                obtain ⟨f1, h1, _⟩ := applyPD_key_evolution props fields
                simp [h1]
              · simp [if_neg hty])
          case _ =>
            exact absurd hd1 (by
              by_cases hty : ty = some "object"
              · rw [if_pos hty]
                obtain ⟨f1, h1, _⟩ := applyPD_key_evolution props fields
                simp [h1]
              · simp [if_neg hty])
          case _ =>
            rw [hd1] at happ
            obtain ⟨fA, hA, kA⟩ := applyDL_key_evolution aOf f1
            rw [hA] at happ
            obtain ⟨fB, hB, hBs⟩ := applyDL_branch_fill oOf b key ps fA hmem hb hp hd
            rw [hB] at happ
            cases happ
            exact hBs
    · intro ty props aOf oOf dd key ps sub key2 ps2 hs hty hp hpt hp2 hd2 hv
      subst hs
      subst hty
      obtain ⟨f2, sub2, happ2, hw, hk2⟩ :=
        applyED_nested_fill props aOf oOf dd key ps sub key2 ps2 fields hp hpt hp2 hd2 hv
      rw [happ] at happ2
      cases happ2
      exact ⟨sub2, hw, hk2⟩

theorem elicitation_applyDefaults_fills_and_preserves_witness :
    wrappedElicitationHandler (some ⟨some ⟨false⟩, none⟩)
      ⟨.form, some (.mk (some "object") [("a", .mk none [] [] [] (some (.num 1)))] [] [] none)⟩
      (fun _ => ⟨.accept, some (.obj [])⟩) =
      .ok ⟨.accept, some (.obj [])⟩ ∧
    (wrappedElicitationHandler (some ⟨some ⟨true⟩, none⟩)
      ⟨.form, some (.mk (some "object") [("a", .mk none [] [] [] (some (.num 1)))] [] [] none)⟩
      (fun _ => ⟨.accept, some (.obj [])⟩)).isOk = true := by
  constructor
  · exact (elicitation_applyDefaults_fills_and_preserves
      (some ⟨some ⟨false⟩, none⟩)
      ⟨.form, some (.mk (some "object") [("a", .mk none [] [] [] (some (.num 1)))] [] [] none)⟩
      (fun _ => ⟨.accept, some (.obj [])⟩)).1 rfl (fun _ => rfl) (fun h => nomatch h)
  · obtain ⟨f2, hwrap, _⟩ := (elicitation_applyDefaults_fills_and_preserves
      (some ⟨some ⟨true⟩, none⟩)
      ⟨.form, some (.mk (some "object") [("a", .mk none [] [] [] (some (.num 1)))] [] [] none)⟩
      (fun _ => ⟨.accept, some (.obj [])⟩)).2
      (.mk (some "object") [("a", .mk none [] [] [] (some (.num 1)))] [] [] none) [] rfl rfl rfl rfl
    rw [hwrap]
    rfl
